import Mathlib

/-!
Shallow embedding of the disentangled spiral-convolution mesh autoencoder
(`model.py`) and of its mesh utilities (`utils.py`).

Tensor entries are modelled by rationals.  The machine exponential used by
`torch.exp`, `F.elu` and `torch.sigmoid` is an explicit function parameter
`fexp : ℚ → ℚ`; only its pointwise application matters for the properties
proved here, never its analytic values.  A per-instance signal (one batch
element) is a matrix `Mat`, a list of per-vertex rows.  Shape errors that
torch raises at runtime are modelled by `Option`/`Except` results.
-/

abbrev Vec := List ℚ
abbrev Mat := List Vec

/-- Dot product of two coefficient lists. -/
def dot (u v : Vec) : ℚ := (List.zipWith (· * ·) u v).sum

/-- A dense linear layer `y = W x + b` (torch `nn.Linear`): `inF` is the
declared `in_features`, `weight` holds the rows of `W`, `bias` is `b`. -/
structure LinearLayer where
  inF : ℕ
  weight : Mat
  bias : Vec

/-- Apply a linear layer.  The input length is checked against
`in_features`, the shape check torch performs at the matmul. -/
def linApply (L : LinearLayer) (x : Vec) : Option Vec :=
  if x.length = L.inF then
    some (List.zipWith (fun w b => dot w x + b) L.weight L.bias)
  else none

/-- ELU activation with the default `alpha = 1` of `F.elu`:
`t` for `t > 0`, else `exp t - 1`. -/
def eluQ (fexp : ℚ → ℚ) (t : ℚ) : ℚ := if 0 < t then t else fexp t - 1

/-- Sigmoid `1 / (1 + exp (-t))` (`torch.sigmoid`). -/
def sigmoidQ (fexp : ℚ → ℚ) (t : ℚ) : ℚ := 1 / (1 + fexp (-t))

/-- Traverse a list with an `Option`-valued function, failing if any
element fails (used to apply a layer row by row). -/
def seqMapO {α β : Type} (f : α → Option β) : List α → Option (List β)
  | [] => some []
  | a :: l =>
    match f a, seqMapO f l with
    | some b, some bs => some (b :: bs)
    | _, _ => none

/-- A spiral convolution (`SpiralConv`): the per-vertex ordered neighbour
table `indices` and the dense map from `in_channels * seq_length` to
`out_channels`. -/
structure SpiralConvP where
  indices : List (List ℕ)
  layer : LinearLayer

/-- Sequence length `indices.size(1)` of the spiral table. -/
def SpiralConvP.seqLen (c : SpiralConvP) : ℕ := (c.indices.headD []).length

/-- Number of output vertices `indices.size(0)` of the spiral table. -/
def SpiralConvP.nNodes (c : SpiralConvP) : ℕ := c.indices.length

/-- Output channel count of the convolution (its linear layer's bias length). -/
def SpiralConvP.outCh (c : SpiralConvP) : ℕ := c.layer.bias.length

/-- `SpiralConv.forward` on a single instance (the 2-dimensional case of
the source): gather each vertex's spiral of neighbour rows
(`torch.index_select`, which requires every index to be in range), flatten
each gathered spiral into one vector (`view(n_nodes, -1)`), and apply the
linear map row by row. -/
def sconvApply (c : SpiralConvP) (x : Mat) : Option Mat :=
  if c.indices.all (fun q => q.all (fun i => decide (i < x.length))) then
    seqMapO (linApply c.layer)
      (c.indices.map (fun q => (q.map (fun i => x.getD i [])).flatten))
  else none

/-- A sparse down/up-transform operator: declared output row count
`trans.size(0)` and its `(row, column, weight)` triples. -/
structure SparseOp where
  rows : ℕ
  triples : List (ℕ × ℕ × ℚ)

def vecAdd (u v : Vec) : Vec := List.zipWith (· + ·) u v

def vecScale (a : ℚ) (v : Vec) : Vec := v.map (fun t => a * t)

/-- Channel count of a signal (length of its first row). -/
def channels (x : Mat) : ℕ := (x.headD []).length

/-- `Pool(x, trans)` of the source on one batch instance: select the
`column` rows of the signal, scale each by its `weight`
(`value.unsqueeze(-1)` broadcasts over channels), and scatter-add into a
zero output of `trans.size(0)` rows, accumulating over repeated rows.
`index_select` requires every column index in range and `scatter_add`
every row index below the declared output size; otherwise torch raises,
modelled by `none`. -/
def poolApply (op : SparseOp) (x : Mat) : Option Mat :=
  if op.triples.all (fun t => decide (t.2.1 < x.length) && decide (t.1 < op.rows)) then
    some (op.triples.foldl
      (fun acc t =>
        acc.set t.1 (vecAdd (acc.getD t.1 []) (vecScale t.2.2 (x.getD t.2.1 []))))
      (List.replicate op.rows (List.replicate (channels x) 0)))
  else none

/-- `SpiralEnblock.forward`: convolution, then ELU, then downsampling pool. -/
def enBlockApply (fexp : ℚ → ℚ) (b : SpiralConvP) (d : SparseOp) (x : Mat) : Option Mat :=
  ((sconvApply b x).map (List.map (List.map (eluQ fexp)))).bind (poolApply d)

/-- `SpiralDeblock.forward`: upsampling pool, then convolution, then ELU. -/
def deBlockApply (fexp : ℚ → ℚ) (b : SpiralConvP) (u : SparseOp) (x : Mat) : Option Mat :=
  ((poolApply u x).bind (sconvApply b)).map (List.map (List.map (eluQ fexp)))

/-- Run the encoder blocks in order, block `i` consuming `down_transform[i]`
(an exhausted transform list is the `IndexError` of the source loop). -/
def runEnBlocks (fexp : ℚ → ℚ) : List SpiralConvP → List SparseOp → Mat → Option Mat
  | [], _, x => some x
  | _ :: _, [], _ => none
  | b :: bs, d :: ds, x => (enBlockApply fexp b d x).bind (runEnBlocks fexp bs ds)

/-- Run the decoder blocks in order; the caller supplies the up-transforms
already reversed, mirroring `up_transform[num_features - i]` in `decode`. -/
def runDeBlocks (fexp : ℚ → ℚ) : List SpiralConvP → List SparseOp → Mat → Option Mat
  | [], _, x => some x
  | _ :: _, [], _ => none
  | b :: bs, u :: us, x => (deBlockApply fexp b u x).bind (runDeBlocks fexp bs us)

/-- Split a flat vector into `n` rows of `c` entries
(the `view(-1, num_vert, channels)` reshape, per batch instance). -/
def splitRows : ℕ → ℕ → Vec → Mat
  | 0, _, _ => []
  | n + 1, c, v => v.take c :: splitRows n c (v.drop c)

/-- The model state built by `Model.__init__` that `encode`, `decode` and
`_reparameterize` consume.  `enLin1` is the first final dense layer
appended to `en_layers` (called the mu layer at construction, with
`latent_size - 1` outputs when disentanglement is active, `old_experiment`
is false and `model_version ≠ 2.3`); `enLin2` is the extra dense layer
appended after it when `is_vae` (called the logvar layer at construction,
always `latent_size` outputs).  So with `is_vae`, `en_layers[-1] = enLin2`
and `en_layers[-2] = enLin1`.  The MLP regressor branch (dropout, batch
normalisation) is not represented: no claim below depends on its values,
only on which latent slice is fed to it. -/
structure ModelP where
  in_channels : ℕ
  out_channels : List ℕ
  latent_size : ℕ
  age_disentanglement : Bool
  old_experiment : Bool
  model_version : ℚ
  is_vae : Bool
  down_transform : List SparseOp
  up_transform : List SparseOp
  enBlocks : List SpiralConvP
  enLin1 : LinearLayer
  enLin2 : LinearLayer
  deFirst : LinearLayer
  deBlocks : List SpiralConvP
  deLast : SpiralConvP

/-- `self.num_vert = self.down_transform[-1].size(0)`. -/
def ModelP.numVert (m : ModelP) : ℕ := (m.down_transform.getLastD ⟨0, []⟩).rows

/-- `Model.encode` on one instance: run every encoder block with its
down-transform, flatten the coarsest signal
(`x.view(-1, en_layers[-1].weight.size(1))`), then in variational mode
compute `mu = en_layers[-1](x)` — the layer appended for the log-variance,
of full latent size — and `logvar = en_layers[-2](x)` — the layer appended
for the mean; otherwise `mu = sigmoid(en_layers[-1](x))` with no logvar. -/
def ModelP.encode (fexp : ℚ → ℚ) (m : ModelP) (x : Mat) : Option (Vec × Option Vec) :=
  (runEnBlocks fexp m.enBlocks m.down_transform x).bind (fun y =>
    let v := y.flatten
    if m.is_vae then
      (linApply m.enLin2 v).bind (fun mu =>
        (linApply m.enLin1 v).map (fun lv => (mu, some lv)))
    else
      (linApply m.enLin1 v).map (fun mu => (mu.map (sigmoidQ fexp), none)))

/-- The decoder up to (but not including) its last layer: the dense
expansion, the reshape to `(num_vert, out_channels[-1])`, and the decoder
blocks, block `i` consuming `up_transform[num_features - i]`. -/
def ModelP.decodePre (fexp : ℚ → ℚ) (m : ModelP) (z : Vec) : Option Mat :=
  (linApply m.deFirst z).bind (fun w =>
    if w.length = m.numVert * m.out_channels.getLastD 0 then
      runDeBlocks fexp m.deBlocks ((m.up_transform.take m.deBlocks.length).reverse)
        (splitRows m.numVert (m.out_channels.getLastD 0) w)
    else none)

/-- `Model.decode`: the decoder blocks followed by one plain spiral
convolution (`de_layers[-1]`), with no activation and no pooling after it. -/
def ModelP.decode (fexp : ℚ → ℚ) (m : ModelP) (z : Vec) : Option Mat :=
  (m.decodePre fexp z).bind (sconvApply m.deLast)

/-- `Model._reparameterize` on a batch: `std = exp(0.5 * logvar)`, `eps`
is the supplied standard-normal draw (`torch.randn_like(std)`).  When
disentanglement is active, `old_experiment` is false and
`model_version ≠ 2.3`, the noise is added to `mu[:, :-1]` only and the
trailing column `mu[:, -1]` is concatenated back unchanged; otherwise
`z = mu + eps * std` on the whole vector. -/
def reparameterize (fexp : ℚ → ℚ) (mu logvar eps : Mat)
    (age_disentanglement old_experiment : Bool) (model_version : ℚ) : Mat :=
  let std := logvar.map (List.map (fun l => fexp (1 / 2 * l)))
  let epsStd := List.zipWith (List.zipWith (· * ·)) eps std
  if age_disentanglement = true ∧ old_experiment = false ∧ model_version ≠ 2.3 then
    List.zipWith (· ++ ·)
      (List.zipWith vecAdd (mu.map List.dropLast) epsStd)
      (mu.map (fun r => [r.getLastD 0]))
  else
    List.zipWith vecAdd mu epsStd

/-- `GradientReversalFn.forward`: `x.view_as(x)`, the identity on the data. -/
def gradReversalForward (x : Vec) (alpha : ℚ) : Vec := x

/-- `GradientReversalFn.backward`: `grad_output.neg() * ctx.alpha`. -/
def gradReversalBackward (alpha : ℚ) (grad : Vec) : Vec :=
  (grad.map (fun t => -t)).map (fun t => t * alpha)

/-- The variant dispatch of `Model.forward`: the five guarded branches on
`(model_version, extra_layers, detach_features)`, in source order.  When no
guard matches, control reaches `return out, z, mu, logvar, mlp_output`
with none of those locals assigned, raising `UnboundLocalError`; that
fall-through is `none`. -/
def forwardSelect (model_version : ℚ) (extra_layers detach_features : Bool) : Option ℕ :=
  if model_version = 1 ∧ extra_layers = false ∧ detach_features = false then some 1
  else if model_version = 2 ∧ extra_layers = false ∧ detach_features = false then some 2
  else if model_version = 1 ∧ extra_layers = true ∧ detach_features = false then some 3
  else if (model_version = 2 ∨ model_version = 2.3) ∧ extra_layers = true ∧ detach_features = false then some 4
  else if model_version = 2 ∧ extra_layers = true ∧ detach_features = true then some 5
  else none

/-! ### Mesh utilities (`utils.py`) -/

/-- A triangular face: three vertex indices. -/
abbrev Face := ℕ × ℕ × ℕ

/-- Whether a face references vertex `v` (one row of `f_original == v_idx`). -/
def faceMentions (t : Face) (v : ℕ) : Bool :=
  decide (t.1 = v) || decide (t.2.1 = v) || decide (t.2.2 = v)

/-- `updated_faces.max()`: the largest vertex index referenced by any face;
`none` on an empty face array, where numpy raises
`ValueError: zero-size array to reduction operation maximum`. -/
def maxFaceEntry (fs : List Face) : Option ℕ :=
  match fs with
  | [] => none
  | _ => some ((fs.map (fun t => max t.1 (max t.2.1 t.2.2))).foldl max 0)

/-- The old-to-new vertex remap of `remove_mesh_vertices`: surviving
vertices are renumbered consecutively in original order
(`arr[val_old] = val_new`), so a surviving index `o` maps to the number of
surviving indices below `o`. -/
def keptBelow (rm : List ℕ) (o : ℕ) : ℕ :=
  ((List.range o).filter (fun i => !(rm.contains i))).length

/-- `remove_mesh_vertices(v_original, f_original, v_idxs_to_remove)`.
Steps, in source order: clear the keep-mask at the removal indices (numpy
fancy-index assignment raises `IndexError` for an index at or beyond the
vertex count); drop every face referencing a removed vertex (the source
collects their row indices per removed vertex, deduplicates, sorts and
masks — the same faces as a direct filter); keep the surviving vertices;
allocate the remap array of size `updated_faces.max() + 1` (raising on an
empty face array) and assign consecutive new indices at the surviving old
indices (raising `IndexError` when a surviving index exceeds the array
bound); finally rewrite the surviving faces through the remap. -/
def remove_mesh_vertices {α : Type} (v : List α) (f : List Face) (rm : List ℕ) :
    Except String (List α × List Face × List Bool) :=
  if rm.all (fun i => decide (i < v.length)) then
    let keepMask : List Bool := (List.range v.length).map (fun i => !(rm.contains i))
    let updatedFaces : List Face := f.filter (fun t => !(rm.any (faceMentions t)))
    let newVertices : List α :=
      ((v.enum).filter (fun p => !(rm.contains p.1))).map Prod.snd
    match maxFaceEntry updatedFaces with
    | none => .error "ValueError: zero-size array to reduction operation maximum"
    | some mx =>
      if (List.range v.length).all (fun i => rm.contains i || decide (i ≤ mx)) then
        .ok (newVertices,
             updatedFaces.map (fun t => (keptBelow rm t.1, keptBelow rm t.2.1, keptBelow rm t.2.2)),
             keepMask)
      else .error "IndexError: index out of bounds in remap assignment"
  else .error "IndexError: index out of bounds in mask assignment"

/-- A colour bucket of the segmentation: interior `feature` vertices and
boundary `contour` vertices. -/
structure Bucket where
  feature : List ℕ
  contour : List ℕ
deriving DecidableEq, Repr

/-- The bucket dictionary, in Python dict insertion order: colour key to
bucket.  Colour values (RGBA rows, bucketed by `str(v_col)` in the source,
an injective encoding) are modelled by naturals. -/
abbrev Buckets := List (ℕ × Bucket)

def bucketsHas (bs : Buckets) (k : ℕ) : Bool := bs.any (fun kb => decide (kb.1 = k))

def bucketsGet (bs : Buckets) (k : ℕ) : Bucket :=
  match bs.find? (fun kb => decide (kb.1 = k)) with
  | some kb => kb.2
  | none => ⟨[], []⟩

def bucketsAddFeature (bs : Buckets) (k : ℕ) (i : ℕ) : Buckets :=
  bs.map (fun kb => if kb.1 = k then (kb.1, ⟨kb.2.feature ++ [i], kb.2.contour⟩) else kb)

def bucketsAddContour (bs : Buckets) (k : ℕ) (i : ℕ) : Buckets :=
  bs.map (fun kb => if kb.1 = k then (kb.1, ⟨kb.2.feature, kb.2.contour ++ [i]⟩) else kb)

/-- `is_contour`: a vertex is contour when any one-ring neighbour has a
different colour. -/
def isContour (colors : List ℕ) (center : ℕ) (ring : List ℕ) : Bool :=
  ring.any (fun r => !(decide (colors.getD r 0 = colors.getD center 0)))

/-- The first pass of `extract_feature_and_contour_from_colour`: visit the
vertices in index order, create the colour's bucket on first sight, and
append the vertex to its `contour` or `feature` list. -/
def firstPass (colors : List ℕ) (rings : List (List ℕ)) : Buckets :=
  (List.range colors.length).foldl
    (fun bs i =>
      let c := colors.getD i 0
      let bs' := if bucketsHas bs c then bs else bs ++ [(c, ⟨[], []⟩)]
      if isContour colors i (rings.getD i []) then bucketsAddContour bs' c i
      else bucketsAddFeature bs' c i)
    []

/-- Distinct elements of a list in first-occurrence order (the key order
of a Python `Counter` built from the list). -/
def firstOccs (l : List ℕ) : List ℕ :=
  l.foldl (fun acc a => if acc.contains a then acc else acc ++ [a]) []

/-- `Counter(l).most_common(1)[0][0]`: an element of maximal multiplicity,
ties resolved toward the first-encountered element; `none` on an empty
list, where the source's `[0]` raises `IndexError`. -/
def mostCommon (l : List ℕ) : Option ℕ :=
  (firstOccs l).foldl
    (fun best a =>
      match best with
      | none => some a
      | some b => if l.count b < l.count a then some a else best)
    none

/-- The inner absorption loop over a tiny bucket's feature vertices: for
each vertex take the most frequent colour among its one-ring neighbours;
if it equals the bucket's own key the loop `break`s, otherwise the vertex
is appended to that colour's `feature` and `contour` lists.  `none` models
the `IndexError` of `most_common(1)[0]` on a neighbourless vertex. -/
def absorbInner (colors : List ℕ) (rings : List (List ℕ)) (key : ℕ) :
    List ℕ → Buckets → Option Buckets
  | [], bs => some bs
  | idx :: rest, bs =>
    match mostCommon ((rings.getD idx []).map (fun r => colors.getD r 0)) with
    | none => none
    | some mc =>
      if mc = key then some bs
      else absorbInner colors rings key rest
        (bucketsAddContour (bucketsAddFeature bs mc idx) mc idx)

/-- The absorption pass over the bucket keys (dict iteration order): a key
whose current `feature` list has fewer than 3 members is recorded for
removal and its feature vertices run through `absorbInner`. -/
def absorbLoop (colors : List ℕ) (rings : List (List ℕ)) :
    List ℕ → Buckets → List ℕ → Option (Buckets × List ℕ)
  | [], bs, rm => some (bs, rm)
  | k :: ks, bs, rm =>
    let b := bucketsGet bs k
    if b.feature.length < 3 then
      match absorbInner colors rings k b.feature bs with
      | none => none
      | some bs' => absorbLoop colors rings ks bs' (rm ++ [k])
    else absorbLoop colors rings ks bs rm

/-- `extract_feature_and_contour_from_colour`, from the colour/one-ring
data (the source derives the one-rings from the mesh edge graph): first
pass bucketing, absorption of tiny buckets, then `pop` of the recorded
keys. -/
def extractFeatureAndContour (colors : List ℕ) (rings : List (List ℕ)) : Option Buckets :=
  let bs0 := firstPass colors rings
  match absorbLoop colors rings (bs0.map Prod.fst) bs0 [] with
  | none => none
  | some (bs, rm) => some (bs.filter (fun kb => !(rm.contains kb.1)))

/-! ### Shape bookkeeping for the encoder/decoder pipeline -/

/-- A rectangular signal: `n` rows of `c` entries. -/
def RectP (x : Mat) (n c : ℕ) : Prop := x.length = n ∧ ∀ r ∈ x, r.length = c

/-- Dimension sanity of one spiral convolution applied to an `(nIn, cIn)`
signal: rectangular spiral table with in-range indices, the declared
`in_features` equal to `cIn * seq_length`, and matching weight/bias row
counts. -/
def convDimsOk (b : SpiralConvP) (nIn cIn : ℕ) : Bool :=
  b.indices.all (fun q => decide (q.length = b.seqLen) && q.all (fun i => decide (i < nIn))) &&
  decide (b.layer.inF = cIn * b.seqLen) &&
  decide (b.layer.weight.length = b.layer.bias.length)

/-- Dimension sanity of the encoder block chain from an `(n, c)` signal:
each block's convolution fits its input, its down-transform's columns
index the convolution output and its rows stay below the declared output
count. -/
def enChainWf : List SpiralConvP → List SparseOp → ℕ → ℕ → Bool
  | [], _, _, _ => true
  | _ :: _, [], _, _ => false
  | b :: bs, d :: ds, n, c =>
    decide (0 < n) && convDimsOk b n c && decide (0 < b.nNodes) &&
    d.triples.all (fun t => decide (t.2.1 < b.nNodes) && decide (t.1 < d.rows)) &&
    enChainWf bs ds d.rows b.outCh

/-- Output vertex count of a block chain started at `n` rows. -/
def chainOutN : List SpiralConvP → List SparseOp → ℕ → ℕ
  | [], _, n => n
  | _ :: _, [], n => n
  | _ :: bs, d :: ds, _ => chainOutN bs ds d.rows

/-- Output channel count of an encoder block chain started at `c` channels. -/
def chainOutC : List SpiralConvP → List SparseOp → ℕ → ℕ
  | [], _, c => c
  | _ :: _, [], c => c
  | b :: bs, _ :: ds, _ => chainOutC bs ds b.outCh

/-- Dimension sanity of the decoder block chain (pool before convolution)
from an `(n, c)` signal; the transforms are supplied already reversed. -/
def deChainWf : List SpiralConvP → List SparseOp → ℕ → ℕ → Bool
  | [], _, _, _ => true
  | _ :: _, [], _, _ => false
  | b :: bs, u :: us, n, c =>
    decide (0 < n) &&
    u.triples.all (fun t => decide (t.2.1 < n) && decide (t.1 < u.rows)) &&
    convDimsOk b u.rows c &&
    deChainWf bs us b.nNodes b.outCh

/-- Output vertex count of a decoder block chain started at `n` rows. -/
def deChainOutN : List SpiralConvP → List SparseOp → ℕ → ℕ
  | [], _, n => n
  | _ :: _, [], n => n
  | b :: bs, _ :: us, _ => deChainOutN bs us b.nNodes

/-- Output channel count of a decoder block chain started at `c` channels. -/
def deChainOutC : List SpiralConvP → List SparseOp → ℕ → ℕ
  | [], _, c => c
  | _ :: _, [], c => c
  | b :: bs, _ :: us, _ => deChainOutC bs us b.outCh

/-- The coarsest-level channel width `out_channels[-1]`. -/
def ModelP.outLast (m : ModelP) : ℕ := m.out_channels.getLastD 0

/-- The output width of the first final dense encoder layer as
`Model.__init__` builds it: `latent_size - 1` when disentanglement is
active, `old_experiment` is false and `model_version ≠ 2.3`, else
`latent_size`. -/
def ModelP.enLin1Out (m : ModelP) : ℕ :=
  if m.age_disentanglement = true ∧ m.old_experiment = false ∧ m.model_version ≠ 2.3 then
    m.latent_size - 1
  else m.latent_size

/-- Well-formedness of a model instance as `Model.__init__` constructs it
for a finest mesh of `V` vertices and `C` input channels: encoder chain
dimensions, final dense layers of the constructed sizes, decoder expansion
and chain dimensions, and a last spiral convolution back to `(V, C)`. -/
def ModelP.wfPipeline (m : ModelP) (V C : ℕ) : Bool :=
  enChainWf m.enBlocks m.down_transform V C &&
  decide (chainOutN m.enBlocks m.down_transform V = m.numVert) &&
  decide (chainOutC m.enBlocks m.down_transform C = m.outLast) &&
  decide (m.enLin1.inF = m.numVert * m.outLast) &&
  decide (m.enLin1.weight.length = m.enLin1.bias.length) &&
  decide (m.enLin1.bias.length = m.enLin1Out) &&
  (!m.is_vae ||
    (decide (m.enLin2.inF = m.numVert * m.outLast) &&
     decide (m.enLin2.weight.length = m.enLin2.bias.length) &&
     decide (m.enLin2.bias.length = m.latent_size))) &&
  decide (m.deFirst.inF = m.latent_size) &&
  decide (m.deFirst.weight.length = m.deFirst.bias.length) &&
  decide (m.deFirst.bias.length = m.numVert * m.outLast) &&
  deChainWf m.deBlocks ((m.up_transform.take m.deBlocks.length).reverse) m.numVert m.outLast &&
  convDimsOk m.deLast
    (deChainOutN m.deBlocks ((m.up_transform.take m.deBlocks.length).reverse) m.numVert)
    (deChainOutC m.deBlocks ((m.up_transform.take m.deBlocks.length).reverse) m.outLast) &&
  decide (m.deLast.nNodes = V) &&
  decide (m.deLast.outCh = C)

/-- Whether the vector `encode` returns as the mean has the full latent
size: always in variational mode (the mean comes from the full-size layer
`en_layers[-1]`), otherwise exactly when the encoder's only final dense
layer was built with `latent_size` outputs. -/
def ModelP.muFull (m : ModelP) : Bool :=
  m.is_vae ||
  !(m.age_disentanglement && !m.old_experiment && !(decide (m.model_version = 2.3)))

/-! ### Concrete instances used to exhibit behaviour -/

/-- A concrete stand-in for the machine exponential. -/
def fexpEx : ℚ → ℚ := fun q => q + 1

/-- A one-vertex, one-channel spiral convolution with identity-like weights. -/
def exConv1 (outW : ℕ) : SpiralConvP :=
  ⟨[[0]], ⟨1, List.replicate outW [1], List.replicate outW 0⟩⟩

/-- A one-row identity sparse transform. -/
def exOp1 : SparseOp := ⟨1, [(0, 0, 1)]⟩

/-- A tiny variational model with disentanglement active
(`old_experiment = false`, `model_version = 1`), one encoder level over a
one-vertex mesh, `latent_size = 2`. -/
def exModelA : ModelP where
  in_channels := 1
  out_channels := [1]
  latent_size := 2
  age_disentanglement := true
  old_experiment := false
  model_version := 1
  is_vae := true
  down_transform := [exOp1]
  up_transform := [exOp1]
  enBlocks := [exConv1 1]
  enLin1 := ⟨1, [[1]], [0]⟩
  enLin2 := ⟨1, [[1], [1]], [0, 0]⟩
  deFirst := ⟨2, [[1, 1]], [0]⟩
  deBlocks := [exConv1 1]
  deLast := exConv1 1

/-- The same tiny model in non-variational form (`is_vae = false`),
keeping disentanglement active: its only final dense encoder layer has
`latent_size - 1 = 1` outputs. -/
def exModelB : ModelP :=
  { exModelA with is_vae := false }

/-- The same tiny model with disentanglement disabled and variational
mode on: both final dense encoder layers have `latent_size = 2` outputs. -/
def exModelC : ModelP :=
  { exModelA with
    age_disentanglement := false
    enLin1 := ⟨1, [[1], [1]], [0, 0]⟩ }

/-- Pointwise linear combination `a • u + b • v` of two coefficient lists. -/
def vecLin (a b : ℚ) (u v : Vec) : Vec := List.zipWith (fun p q => a * p + b * q) u v

/-- Pointwise linear combination `a • x + b • y` of two signals. -/
def matLin (a b : ℚ) (x y : Mat) : Mat := List.zipWith (vecLin a b) x y

/-! ### General list lemmas -/

theorem getD_zipWith {α β γ : Type} (f : α → β → γ) (d₁ : α) (d₂ : β) (d₃ : γ) :
    ∀ (l₁ : List α) (l₂ : List β) (i : ℕ), i < l₁.length → i < l₂.length →
      (List.zipWith f l₁ l₂).getD i d₃ = f (l₁.getD i d₁) (l₂.getD i d₂) := by
  intro l₁
  induction l₁ with
  | nil => intro l₂ i h₁ _; simp at h₁
  | cons a t ih =>
    intro l₂ i h₁ h₂
    cases l₂ with
    | nil => simp at h₂
    | cons b t₂ =>
      cases i with
      | zero => simp [List.getD]
      | succ j =>
        simp only [List.zipWith_cons_cons, List.getD_cons_succ]
        exact ih t₂ j (Nat.lt_of_succ_lt_succ h₁) (Nat.lt_of_succ_lt_succ h₂)

theorem getD_map {α β : Type} (f : α → β) (d₁ : α) (d₂ : β) :
    ∀ (l : List α) (i : ℕ), i < l.length → (l.map f).getD i d₂ = f (l.getD i d₁) := by
  intro l
  induction l with
  | nil => intro i h; simp at h
  | cons a t ih =>
    intro i h
    cases i with
    | zero => simp [List.getD]
    | succ j => simpa using ih j (Nat.lt_of_succ_lt_succ h)

theorem zipWith_set {α β γ : Type} (f : α → β → γ) :
    ∀ (l₁ : List α) (l₂ : List β) (i : ℕ) (a : α) (b : β),
      List.zipWith f (l₁.set i a) (l₂.set i b) = (List.zipWith f l₁ l₂).set i (f a b) := by
  intro l₁
  induction l₁ with
  | nil => intro l₂ i a b; simp
  | cons h t ih =>
    intro l₂ i a b
    cases l₂ with
    | nil => simp
    | cons h₂ t₂ =>
      cases i with
      | zero => simp
      | succ j => simp [ih t₂ j a b]

theorem length_filter_add_not {α : Type} (p : α → Bool) :
    ∀ l : List α, (l.filter p).length + (l.filter (fun a => !(p a))).length = l.length := by
  intro l
  induction l with
  | nil => simp
  | cons a t ih =>
    by_cases h : p a = true
    · simp [List.filter_cons, h, Nat.succ_add, ih]
    · simp only [Bool.not_eq_true] at h
      simp [List.filter_cons, h]
      omega

/-! ### Claim C1: reparameterization attribute isolation -/

/-- Claim C1, amended: the trailing scalar of the reparameterized vector
equals the trailing scalar of the mean and the leading sub-vector is mean
plus sample times `exp(0.5 * logvar)` when disentanglement is active AND
`old_experiment` is false AND `model_version ≠ 2.3` — the full guard of
`_reparameterize`, of which the claim names only the first conjunct. -/
theorem claim_C1_reparam_attribute_isolation
    (fexp : ℚ → ℚ) (mu logvar eps : Mat) (model_version : ℚ)
    (hmv : model_version ≠ 2.3) :
    ∀ i < (reparameterize fexp mu logvar eps true false model_version).length,
      ((reparameterize fexp mu logvar eps true false model_version).getD i []).getLastD 0
          = (mu.getD i []).getLastD 0 ∧
      ((reparameterize fexp mu logvar eps true false model_version).getD i []).dropLast
          = vecAdd ((mu.getD i []).dropLast)
              ((List.zipWith (List.zipWith (· * ·)) eps
                 (logvar.map (List.map (fun l => fexp (1 / 2 * l))))).getD i []) := by
  intro i hi
  have hguard : (true = true ∧ false = false ∧ model_version ≠ 2.3) := ⟨rfl, rfl, hmv⟩
  rw [reparameterize, if_pos hguard] at hi ⊢
  set epsStd := List.zipWith (List.zipWith (· * ·)) eps
      (logvar.map (List.map (fun l => fexp (1 / 2 * l)))) with hes
  rw [List.length_zipWith, lt_min_iff] at hi
  have hiA : i < (List.zipWith vecAdd (mu.map List.dropLast) epsStd).length := hi.1
  have hiB : i < (mu.map (fun r => [r.getLastD 0])).length := hi.2
  have hi' := hiA
  rw [List.length_zipWith, lt_min_iff] at hi'
  have hmd : i < (mu.map List.dropLast).length := hi'.1
  have hie : i < epsStd.length := hi'.2
  have himu : i < mu.length := by rw [List.length_map] at hmd; exact hmd
  have hrow :
      (List.zipWith (· ++ ·) (List.zipWith vecAdd (mu.map List.dropLast) epsStd)
          (mu.map (fun r => [r.getLastD 0]))).getD i []
        = (vecAdd ((mu.getD i []).dropLast) (epsStd.getD i []))
            ++ [(mu.getD i []).getLastD 0] := by
    rw [getD_zipWith (· ++ ·) [] [] [] _ _ i hiA hiB,
      getD_zipWith vecAdd [] [] [] _ _ i hmd hie,
      getD_map List.dropLast [] [] mu i himu,
      getD_map (fun r => [r.getLastD 0]) [] [] mu i himu]
  rw [hrow]
  exact ⟨List.getLastD_concat _ _ _, List.dropLast_concat⟩

/-- Witness for C1 at a concrete input: with `mu = [[1, 2]]`,
`logvar = [[0]]`, `eps = [[3]]`, the reparameterized row is `[4, 2]` and
its trailing entry equals the mean's trailing entry. -/
theorem claim_C1_witness :
    ((reparameterize fexpEx [[1, 2]] [[0]] [[3]] true false 1).getD 0 []).getLastD 0
      = (([[(1 : ℚ), 2]]).getD 0 []).getLastD 0 :=
  (claim_C1_reparam_attribute_isolation fexpEx [[1, 2]] [[0]] [[3]] 1 (by norm_num)
    0 (by norm_num [reparameterize, fexpEx, vecAdd])).1

/-- Counterexample to C1 as stated: with disentanglement active but
`old_experiment = true`, `_reparameterize` takes its `else` branch and the
trailing scalar does receive noise (`3 ≠ 2`). -/
theorem claim_C1_counterexample :
    ((reparameterize fexpEx [[1, 2]] [[0, 0]] [[1, 1]] true true 1).getD 0 []).getLastD 0
      ≠ (([[(1 : ℚ), 2]]).getD 0 []).getLastD 0 := by
  have h : reparameterize fexpEx [[1, 2]] [[0, 0]] [[1, 1]] true true 1 = [[2, 3]] := by
    norm_num [reparameterize, fexpEx, vecAdd]
  rw [h]
  norm_num

/-! ### Claim C4: small-region absorption -/

/-- Claim C4's failing input: the 4-vertex path mesh `0-1-2-3` coloured
`[1, 1, 2, 2]`.  The first pass yields two buckets, each with one feature
and one contour vertex, so both are tiny; a feature vertex's one-ring is
unanimously its own colour, so `most_common == key` makes the inner loop
`break` at its first vertex, nothing is reassigned, and both buckets are
popped: the final mapping is empty and all four vertices are lost, instead
of the claimed reassignment of each tiny bucket's vertices to the
neighbour-majority bucket. -/
theorem claim_C4_tiny_buckets_dropped_without_reassignment :
    firstPass [1, 1, 2, 2] [[1], [0, 2], [1, 3], [2]]
        = [(1, ⟨[0], [1]⟩), (2, ⟨[3], [2]⟩)] ∧
    extractFeatureAndContour [1, 1, 2, 2] [[1], [0, 2], [1, 3], [2]] = some [] := by
  decide

/-! ### Claim C6: gradient reversal -/

/-- Claim C6: the gradient-reversal forward pass is the identity on its
input, and the backward pass equals the negation of the incoming gradient
scaled by `alpha` — the negative of the scaled gradient that would pass
through without reversal. -/
theorem claim_C6_gradient_reversal :
    (∀ (x : Vec) (alpha : ℚ), gradReversalForward x alpha = x) ∧
    (∀ (alpha : ℚ) (grad : Vec),
      gradReversalBackward alpha grad
        = (grad.map (fun t => alpha * t)).map (fun t => -t)) := by
  refine ⟨fun x alpha => rfl, fun alpha grad => ?_⟩
  simp only [gradReversalBackward, List.map_map]
  refine List.map_congr_left (fun t _ => ?_)
  simp only [Function.comp_apply]
  ring

/-! ### Claim C9: segmentation determinism -/

/-- Claim C9: region segmentation is deterministic — two runs on the same
colouring and the same adjacency (one-ring lists, whose enumeration order
the embedding fixes exactly as the source's dict/Counter iteration does)
produce identical bucket contents, including after absorption. -/
theorem claim_C9_segmentation_deterministic
    (c₁ c₂ : List ℕ) (r₁ r₂ : List (List ℕ))
    (hc : c₁ = c₂) (hr : r₁ = r₂) :
    extractFeatureAndContour c₁ r₁ = extractFeatureAndContour c₂ r₂ := by
  rw [hc, hr]

/-- Witness for C9 on a concrete mesh colouring. -/
theorem claim_C9_witness :
    extractFeatureAndContour [1, 1, 1, 1, 1, 2]
        [[1, 2], [0, 2], [0, 1, 3], [2, 4, 5], [3, 5], [3, 4]]
      = extractFeatureAndContour [1, 1, 1, 1, 1, 2]
        [[1, 2], [0, 2], [0, 1, 3], [2, 4, 5], [3, 5], [3, 4]] :=
  claim_C9_segmentation_deterministic _ _ _ _ rfl rfl

/-! ### Claim C10: forward-pass variant dispatch -/

/-- Claim C10: `Model.forward` assigns its result variables only under the
five guarded selector combinations (the fourth accepts primary mode 2 or
2.3 with extra layers and no detaching); for every other combination —
e.g. mode 1 with detach-features on, or a mode other than 1, 2, 2.3 — no
branch runs and the `return` raises `UnboundLocalError`, modelled by
`none`. -/
theorem claim_C10_forward_variant_dispatch :
    ∀ (mv : ℚ) (extra detach : Bool),
      forwardSelect mv extra detach = none ↔
        ¬ ((mv = 1 ∧ extra = false ∧ detach = false) ∨
           (mv = 2 ∧ extra = false ∧ detach = false) ∨
           (mv = 1 ∧ extra = true ∧ detach = false) ∨
           ((mv = 2 ∨ mv = 2.3) ∧ extra = true ∧ detach = false) ∨
           (mv = 2 ∧ extra = true ∧ detach = true)) := by
  intro mv extra detach
  unfold forwardSelect
  split_ifs with h1 h2 h3 h4 h5 <;> simp_all

/-! ### Claims C5 and C8: vertex pruning -/

theorem contains_iff_mem (l : List ℕ) (a : ℕ) : l.contains a = true ↔ a ∈ l :=
  List.elem_iff

theorem length_filter_contains (rm : List ℕ) (n : ℕ) (hnd : rm.Nodup)
    (hin : ∀ i ∈ rm, i < n) :
    ((List.range n).filter (fun i => rm.contains i)).length = rm.length := by
  have hperm : ((List.range n).filter (fun i => rm.contains i)).Perm rm := by
    refine (List.perm_ext_iff_of_nodup (List.Nodup.filter _ (List.nodup_range n)) hnd).2 ?_
    intro a
    simp only [List.mem_filter, List.mem_range]
    constructor
    · rintro ⟨-, h⟩
      exact (contains_iff_mem rm a).1 h
    · intro h
      exact ⟨hin a h, (contains_iff_mem rm a).2 h⟩
  exact hperm.length_eq

theorem length_filter_not_contains (rm : List ℕ) (n : ℕ) (hnd : rm.Nodup)
    (hin : ∀ i ∈ rm, i < n) :
    ((List.range n).filter (fun i => !(rm.contains i))).length = n - rm.length := by
  have h1 := length_filter_add_not (fun i => rm.contains i) (List.range n)
  rw [length_filter_contains rm n hnd hin, List.length_range] at h1
  omega

theorem keptBelow_nil (e : ℕ) : keptBelow [] e = e := by
  simp [keptBelow, List.contains_nil]

theorem keptBelow_lt_keptCount (rm : List ℕ) (n e : ℕ) (hnd : rm.Nodup)
    (hin : ∀ i ∈ rm, i < n) (he : e < n) (hek : rm.contains e = false) :
    keptBelow rm e < n - rm.length := by
  have hek' : ¬ e ∈ rm := fun h => by
    rw [(contains_iff_mem rm e).2 h] at hek
    exact Bool.true_eq_false.mp hek
  have hstep : keptBelow rm e + 1
      = ((List.range (e + 1)).filter (fun i => !(rm.contains i))).length := by
    rw [keptBelow, List.range_succ, List.filter_append]
    simp [hek']
  have hsub : ((List.range (e + 1)).filter (fun i => !(rm.contains i))).length
      ≤ ((List.range n).filter (fun i => !(rm.contains i))).length :=
    List.Sublist.length_le (List.Sublist.filter _ (List.range_sublist.2 he))
  rw [length_filter_not_contains rm n hnd hin] at hsub
  omega

theorem length_enum_filter {α : Type} (v : List α) (p : ℕ → Bool) :
    (((v.enum).filter (fun q => p q.1)).map Prod.snd).length
      = ((List.range v.length).filter p).length := by
  rw [List.length_map]
  have h : (List.range v.length).filter p = ((v.enum.map Prod.fst)).filter p := by
    rw [List.enum_map_fst]
  rw [h, List.filter_map, List.length_map]
  rfl

theorem faceMentions_fst (t : Face) : faceMentions t t.1 = true := by
  simp [faceMentions]

theorem faceMentions_snd (t : Face) : faceMentions t t.2.1 = true := by
  simp [faceMentions]

theorem faceMentions_thd (t : Face) : faceMentions t t.2.2 = true := by
  simp [faceMentions]

/-- Claim C5, amended: for a valid mesh (all face indices below the vertex
count) and a removal list with no duplicates and no out-of-range indices,
WHENEVER the pruning call returns a result — it raises instead when no
face survives, or when some surviving vertex index exceeds the largest
index referenced by a surviving face — every output face references only
surviving vertices (all indices below the new vertex count) and the output
vertex count is the input count minus the removal count. -/
theorem claim_C5_pruning_soundness {α : Type} (v : List α) (f : List Face) (rm : List ℕ)
    (nv : List α) (nf : List Face) (mask : List Bool)
    (hnd : rm.Nodup) (hin : ∀ i ∈ rm, i < v.length)
    (hf : ∀ t ∈ f, t.1 < v.length ∧ t.2.1 < v.length ∧ t.2.2 < v.length)
    (hok : remove_mesh_vertices v f rm = .ok (nv, nf, mask)) :
    nv.length = v.length - rm.length ∧
    ∀ t ∈ nf, t.1 < nv.length ∧ t.2.1 < nv.length ∧ t.2.2 < nv.length := by
  have hall : rm.all (fun i => decide (i < v.length)) = true := by
    rw [List.all_eq_true]
    intro i hi
    simpa using hin i hi
  rw [remove_mesh_vertices, if_pos hall] at hok
  simp only [] at hok
  split at hok
  · exact absurd hok (by simp)
  · rename_i mx hmx
    split at hok
    · simp only [Except.ok.injEq, Prod.mk.injEq] at hok
      obtain ⟨hnv, hnf, hmask⟩ := hok
      have hlen : nv.length = v.length - rm.length := by
        have he := length_enum_filter v (fun i => !(rm.contains i))
        rw [← hnv, he, length_filter_not_contains rm v.length hnd hin]
      refine ⟨hlen, ?_⟩
      intro t' ht'
      rw [← hnf] at ht'
      obtain ⟨t, htm, rfl⟩ := List.mem_map.1 ht'
      obtain ⟨htf, hpred⟩ := List.mem_filter.1 htm
      have hnomem : ∀ r ∈ rm, faceMentions t r = false := by
        have := List.any_eq_false.1 (by simpa using hpred)
        intro r hr
        simpa using this r hr
      have h1 : rm.contains t.1 = false := by
        by_cases h : t.1 ∈ rm
        · exact absurd (faceMentions_fst t) (by simp [hnomem t.1 h])
        · simpa [contains_iff_mem] using h
      have h2 : rm.contains t.2.1 = false := by
        by_cases h : t.2.1 ∈ rm
        · exact absurd (faceMentions_snd t) (by simp [hnomem t.2.1 h])
        · simpa [contains_iff_mem] using h
      have h3 : rm.contains t.2.2 = false := by
        by_cases h : t.2.2 ∈ rm
        · exact absurd (faceMentions_thd t) (by simp [hnomem t.2.2 h])
        · simpa [contains_iff_mem] using h
      obtain ⟨hb1, hb2, hb3⟩ := hf t htf
      rw [hlen]
      exact ⟨keptBelow_lt_keptCount rm v.length t.1 hnd hin hb1 h1,
             keptBelow_lt_keptCount rm v.length t.2.1 hnd hin hb2 h2,
             keptBelow_lt_keptCount rm v.length t.2.2 hnd hin hb3 h3⟩
    · exact absurd hok (by simp)

/-- Witness for C5 on a concrete mesh: removing vertex 0 from a 4-vertex
mesh with faces `(0,1,2)` and `(1,2,3)` keeps 3 vertices and remaps the
surviving face `(1,2,3)` to `(0,1,2)`. -/
theorem claim_C5_witness :
    (([20, 30, 40] : List ℕ).length = ([10, 20, 30, 40] : List ℕ).length - ([0] : List ℕ).length) ∧
    ∀ t ∈ ([((0 : ℕ), (1 : ℕ), (2 : ℕ))] : List Face),
      t.1 < ([20, 30, 40] : List ℕ).length ∧ t.2.1 < ([20, 30, 40] : List ℕ).length ∧
      t.2.2 < ([20, 30, 40] : List ℕ).length :=
  claim_C5_pruning_soundness [10, 20, 30, 40] [(0, 1, 2), (1, 2, 3)] [0]
    [20, 30, 40] [(0, 1, 2)] [false, true, true, true]
    (by decide) (by decide) (by decide) (by rfl)

/-- Counterexample to C5 as stated: on a legitimate mesh (5 vertices,
faces `(0,1,2)` and `(2,3,4)`) with the duplicate-free, in-range removal
list `[3]`, the source raises — vertex 4 survives but exceeds the largest
index (2) referenced by the surviving faces, so `arr[val_old] = val_new`
indexes out of bounds — instead of returning a pruned mesh. -/
theorem claim_C5_counterexample :
    ([3] : List ℕ).Nodup ∧ (∀ i ∈ ([3] : List ℕ), i < ([10, 20, 30, 40, 50] : List ℕ).length) ∧
    remove_mesh_vertices ([10, 20, 30, 40, 50] : List ℕ) [(0, 1, 2), (2, 3, 4)] [3]
      = .error "IndexError: index out of bounds in remap assignment" := by
  refine ⟨by decide, by decide, by rfl⟩

/-- Claim C8, amended: provided the mesh has at least one face and every
vertex index is at most the largest index referenced by a face, pruning
with an empty removal list is a no-op — keep-mask all true, vertices and
faces returned unchanged (the remap is the identity); without that proviso
the source raises even for an empty removal list (see the counterexample).
And pruning with any removal index at or beyond the vertex count always
fails loudly with an `IndexError` at the mask assignment, never silently
clipping or ignoring the index. -/
theorem claim_C8_empty_prune_noop_and_oob_failure {α : Type}
    (v : List α) (f : List Face) (mx : ℕ)
    (hmx : maxFaceEntry f = some mx) (hcov : v.length ≤ mx + 1) :
    remove_mesh_vertices v f [] = .ok (v, f, List.replicate v.length true) ∧
    ∀ (w : List α) (g : List Face) (rm : List ℕ) (j : ℕ),
      j ∈ rm → w.length ≤ j →
      remove_mesh_vertices w g rm
        = .error "IndexError: index out of bounds in mask assignment" := by
  constructor
  · have hcond : ((List.range v.length).all fun i => decide (i ≤ mx)) = true := by
      rw [List.all_eq_true]
      intro i hi
      rw [List.mem_range] at hi
      simp only [decide_eq_true_eq]
      omega
    rw [remove_mesh_vertices, if_pos (by simp)]
    have hupd : (List.filter (fun t => !(([] : List ℕ).any (faceMentions t))) f) = f := by
      simp
    simp only [hupd, hmx]
    have hc2 : ((List.range v.length).all
        fun i => ([] : List ℕ).contains i || decide (i ≤ mx)) = true := by
      simp only [List.contains_nil, Bool.false_or]
      exact hcond
    rw [if_pos hc2]
    simp only [Except.ok.injEq, Prod.mk.injEq]
    refine ⟨?_, ?_, ?_⟩
    · simp [List.contains_nil, List.filter_true, List.enum_map_snd]
    · simp [keptBelow_nil, Prod.mk.eta, List.map_id']
    · simp only [List.contains_nil, Bool.not_false]
      rw [List.eq_replicate_iff]
      constructor
      · rw [List.length_map, List.length_range]
      · intro b hb
        obtain ⟨i, -, rfl⟩ := List.mem_map.1 hb
        rfl
  · intro w g rm j hj hge
    rw [remove_mesh_vertices, if_neg ?_]
    intro hcontra
    have := List.all_eq_true.1 hcontra j hj
    simp only [decide_eq_true_eq] at this
    omega

/-- Witness for C8 on a mesh whose last vertex is referenced by a face:
empty-list pruning is the identity with an all-true keep-mask. -/
theorem claim_C8_witness :
    remove_mesh_vertices ([10, 20, 30] : List ℕ) [(0, 1, 2)] []
        = .ok ([10, 20, 30], [(0, 1, 2)], List.replicate 3 true) ∧
    ∀ (w : List ℕ) (g : List Face) (rm : List ℕ) (j : ℕ),
      j ∈ rm → w.length ≤ j →
      remove_mesh_vertices w g rm
        = .error "IndexError: index out of bounds in mask assignment" :=
  claim_C8_empty_prune_noop_and_oob_failure [10, 20, 30] [(0, 1, 2)] 2 (by rfl) (by decide)

/-- Counterexample to C8 as stated: on a mesh with an unreferenced
trailing vertex (4 vertices, single face `(0,1,2)`), pruning with an EMPTY
removal list is not a no-op — the remap array has size
`updated_faces.max() + 1 = 3` and the assignment at surviving index 3
raises `IndexError`, so the source returns nothing at all. -/
theorem claim_C8_counterexample :
    remove_mesh_vertices ([10, 20, 30, 40] : List ℕ) [(0, 1, 2)] []
      = .error "IndexError: index out of bounds in remap assignment" := by rfl

/-! ### Claim C7: pooling linearity -/

theorem getD_mem_of_lt {α : Type} (l : List α) (i : ℕ) (d : α) (h : i < l.length) :
    l.getD i d ∈ l := by
  rw [List.getD_eq_getElem l d h]
  exact List.getElem_mem h

theorem vecLin_zero (a b : ℚ) (c : ℕ) :
    vecLin a b (List.replicate c 0) (List.replicate c 0) = List.replicate c 0 := by
  induction c with
  | zero => rfl
  | succ n ih => simp only [List.replicate_succ, vecLin, List.zipWith_cons_cons,
      mul_zero, add_zero]; rw [vecLin] at ih; rw [ih]

theorem matLin_replicate_zero (a b : ℚ) (k c : ℕ) :
    matLin a b (List.replicate k (List.replicate c 0)) (List.replicate k (List.replicate c 0))
      = List.replicate k (List.replicate c 0) := by
  induction k with
  | zero => rfl
  | succ n ih => simp only [List.replicate_succ, matLin, List.zipWith_cons_cons,
      vecLin_zero]; rw [matLin] at ih; rw [ih]

theorem vecScale_vecLin (w a b : ℚ) :
    ∀ (u v : Vec), vecScale w (vecLin a b u v) = vecLin a b (vecScale w u) (vecScale w v) := by
  intro u
  induction u with
  | nil => intro v; cases v <;> simp [vecScale, vecLin]
  | cons p t ih =>
    intro v
    cases v with
    | nil => simp [vecScale, vecLin]
    | cons q s =>
      simp only [vecScale, vecLin, List.zipWith_cons_cons, List.map_cons, List.cons.injEq]
      refine ⟨by ring, ?_⟩
      have := ih s
      simpa [vecScale, vecLin] using this

theorem vecAdd_vecLin (a b : ℚ) :
    ∀ (p q u v : Vec), p.length = u.length → q.length = v.length → p.length = q.length →
      vecAdd (vecLin a b p q) (vecLin a b u v) = vecLin a b (vecAdd p u) (vecAdd q v) := by
  intro p
  induction p with
  | nil =>
    intro q u v hpu hqv hpq
    have hu : u = [] := List.length_eq_zero.1 hpu.symm
    have hq : q = [] := List.length_eq_zero.1 hpq.symm
    subst hu hq
    simp [vecAdd, vecLin]
  | cons ph pt ih =>
    intro q u v hpu hqv hpq
    cases u with
    | nil => simp at hpu
    | cons uh ut =>
      cases q with
      | nil => simp at hpq
      | cons qh qt =>
        cases v with
        | nil => simp at hqv
        | cons vh vt =>
          simp only [vecAdd, vecLin, List.zipWith_cons_cons, List.cons.injEq]
          refine ⟨by ring, ?_⟩
          have := ih qt ut vt (by simpa using hpu) (by simpa using hqv) (by simpa using hpq)
          simpa [vecAdd, vecLin] using this

theorem getD_matLin (a b : ℚ) (x y : Mat) (i : ℕ) (hx : i < x.length) (hy : i < y.length) :
    (matLin a b x y).getD i [] = vecLin a b (x.getD i []) (y.getD i []) :=
  getD_zipWith (vecLin a b) [] [] [] x y i hx hy

theorem pool_foldl_linear (a b : ℚ) (x y : Mat) (c : ℕ)
    (hxy : x.length = y.length)
    (hxc : ∀ r ∈ x, r.length = c) (hyc : ∀ r ∈ y, r.length = c) :
    ∀ (ts : List (ℕ × ℕ × ℚ)) (rows : ℕ) (accx accy : Mat),
      (∀ t ∈ ts, t.2.1 < x.length ∧ t.1 < rows) →
      accx.length = rows → accy.length = rows →
      (∀ r ∈ accx, r.length = c) → (∀ r ∈ accy, r.length = c) →
      ts.foldl (fun acc t =>
          acc.set t.1 (vecAdd (acc.getD t.1 [])
            (vecScale t.2.2 ((matLin a b x y).getD t.2.1 []))))
        (matLin a b accx accy)
      = matLin a b
          (ts.foldl (fun acc t =>
              acc.set t.1 (vecAdd (acc.getD t.1 []) (vecScale t.2.2 (x.getD t.2.1 [])))) accx)
          (ts.foldl (fun acc t =>
              acc.set t.1 (vecAdd (acc.getD t.1 []) (vecScale t.2.2 (y.getD t.2.1 [])))) accy) := by
  intro ts
  induction ts with
  | nil => intro rows accx accy _ _ _ _ _; rfl
  | cons t ts ih =>
    intro rows accx accy hts hlx hly hrx hry
    simp only [List.foldl_cons]
    have hcol : t.2.1 < x.length := (hts t (List.mem_cons_self t ts)).1
    have hrw : t.1 < rows := (hts t (List.mem_cons_self t ts)).2
    have hcoly : t.2.1 < y.length := by omega
    have hrowx : t.1 < accx.length := by omega
    have hrowy : t.1 < accy.length := by omega
    have hAx : (accx.getD t.1 []).length = c := hrx _ (getD_mem_of_lt accx t.1 [] hrowx)
    have hAy : (accy.getD t.1 []).length = c := hry _ (getD_mem_of_lt accy t.1 [] hrowy)
    have hSx : (vecScale t.2.2 (x.getD t.2.1 [])).length = c := by
      rw [vecScale, List.length_map]
      exact hxc _ (getD_mem_of_lt x t.2.1 [] hcol)
    have hSy : (vecScale t.2.2 (y.getD t.2.1 [])).length = c := by
      rw [vecScale, List.length_map]
      exact hyc _ (getD_mem_of_lt y t.2.1 [] hcoly)
    have hstep : (matLin a b accx accy).set t.1
        (vecAdd ((matLin a b accx accy).getD t.1 [])
          (vecScale t.2.2 ((matLin a b x y).getD t.2.1 [])))
      = matLin a b
          (accx.set t.1 (vecAdd (accx.getD t.1 []) (vecScale t.2.2 (x.getD t.2.1 []))))
          (accy.set t.1 (vecAdd (accy.getD t.1 []) (vecScale t.2.2 (y.getD t.2.1 [])))) := by
      rw [getD_matLin a b accx accy t.1 hrowx hrowy,
          getD_matLin a b x y t.2.1 hcol hcoly,
          vecScale_vecLin,
          vecAdd_vecLin a b _ _ _ _ (by omega) (by omega) (by omega)]
      simp only [matLin]
      rw [zipWith_set (vecLin a b)]
    rw [hstep]
    refine ih rows _ _ (fun s hs => hts s (List.mem_cons_of_mem t hs))
      (by rw [List.length_set]; exact hlx) (by rw [List.length_set]; exact hly) ?_ ?_
    · intro r hr
      rcases List.mem_or_eq_of_mem_set hr with h | h
      · exact hrx r h
      · rw [h, vecAdd, List.length_zipWith, hAx, hSx, min_self]
    · intro r hr
      rcases List.mem_or_eq_of_mem_set hr with h | h
      · exact hry r h
      · rw [h, vecAdd, List.length_zipWith, hAy, hSy, min_self]

/-- Claim C7: the pooling primitive — `output[row] += weight * signal[column]`
over every `(row, column, weight)` triple, accumulating over repeated rows
into a zero output — is linear in its signal argument: on compatible
in-range signals, `pool(a*x + b*y, op) = a*pool(x, op) + b*pool(y, op)`. -/
theorem claim_C7_pool_linearity (op : SparseOp) (a b : ℚ) (x y : Mat) (n c : ℕ)
    (h0 : 0 < n) (hx : x.length = n) (hy : y.length = n)
    (hxc : ∀ r ∈ x, r.length = c) (hyc : ∀ r ∈ y, r.length = c)
    (ht : ∀ t ∈ op.triples, t.2.1 < n ∧ t.1 < op.rows) :
    ∃ px py pz,
      poolApply op x = some px ∧ poolApply op y = some py ∧
      poolApply op (matLin a b x y) = some pz ∧ pz = matLin a b px py := by
  have hxl : (matLin a b x y).length = n := by
    rw [matLin, List.length_zipWith, hx, hy, min_self]
  have hcx : channels x = c := by
    cases x with
    | nil => simp at hx; omega
    | cons r x' => exact hxc r (List.mem_cons_self r x')
  have hcy : channels y = c := by
    cases y with
    | nil => simp at hy; omega
    | cons r y' => exact hyc r (List.mem_cons_self r y')
  have hcz : channels (matLin a b x y) = c := by
    cases x with
    | nil => simp at hx; omega
    | cons r x' =>
      cases y with
      | nil => simp at hy; omega
      | cons s y' =>
        show ((matLin a b (r :: x') (s :: y')).headD []).length = c
        rw [matLin, List.zipWith_cons_cons]
        show (vecLin a b r s).length = c
        rw [vecLin, List.length_zipWith,
          hxc r (List.mem_cons_self r x'), hyc s (List.mem_cons_self s y'), min_self]
  have gx : (op.triples.all fun t =>
      decide (t.2.1 < x.length) && decide (t.1 < op.rows)) = true := by
    rw [List.all_eq_true]
    intro t htm
    have h := ht t htm
    simp only [Bool.and_eq_true, decide_eq_true_eq]
    omega
  have gy : (op.triples.all fun t =>
      decide (t.2.1 < y.length) && decide (t.1 < op.rows)) = true := by
    rw [List.all_eq_true]
    intro t htm
    have h := ht t htm
    simp only [Bool.and_eq_true, decide_eq_true_eq]
    omega
  have gz : (op.triples.all fun t =>
      decide (t.2.1 < (matLin a b x y).length) && decide (t.1 < op.rows)) = true := by
    rw [List.all_eq_true]
    intro t htm
    have h := ht t htm
    simp only [Bool.and_eq_true, decide_eq_true_eq]
    omega
  refine ⟨_, _, _, by rw [poolApply, if_pos gx], by rw [poolApply, if_pos gy],
    by rw [poolApply, if_pos gz], ?_⟩
  rw [hcx, hcy, hcz]
  have hinit := matLin_replicate_zero a b op.rows c
  conv_lhs => rw [← hinit]
  exact pool_foldl_linear a b x y c (by omega) hxc hyc op.triples op.rows
    (List.replicate op.rows (List.replicate c 0)) (List.replicate op.rows (List.replicate c 0))
    (fun t htm => ⟨by rw [hx]; exact (ht t htm).1, (ht t htm).2⟩)
    (List.length_replicate op.rows _) (List.length_replicate op.rows _)
    (fun r hr => by rw [List.eq_of_mem_replicate hr]; exact List.length_replicate c 0)
    (fun r hr => by rw [List.eq_of_mem_replicate hr]; exact List.length_replicate c 0)

/-- Witness for C7 on a concrete operator and signals. -/
theorem claim_C7_witness :
    ∃ px py pz,
      poolApply ⟨2, [(0, 0, 2), (0, 1, 3), (1, 0, 5)]⟩ [[1], [2]] = some px ∧
      poolApply ⟨2, [(0, 0, 2), (0, 1, 3), (1, 0, 5)]⟩ [[3], [4]] = some py ∧
      poolApply ⟨2, [(0, 0, 2), (0, 1, 3), (1, 0, 5)]⟩ (matLin 2 7 [[1], [2]] [[3], [4]])
        = some pz ∧
      pz = matLin 2 7 px py :=
  claim_C7_pool_linearity ⟨2, [(0, 0, 2), (0, 1, 3), (1, 0, 5)]⟩ 2 7 [[1], [2]] [[3], [4]] 2 1
    (by decide) (by rfl) (by rfl) (by decide) (by decide) (by decide)

/-! ### Claim C2: encoder output sizes -/

theorem linApply_length (L : LinearLayer) (x u : Vec) (h : linApply L x = some u) :
    u.length = min L.weight.length L.bias.length := by
  rw [linApply] at h
  split at h
  · simp only [Option.some.injEq] at h
    rw [← h, List.length_zipWith]
  · exact absurd h (by simp)

theorem linApply_some (L : LinearLayer) (x : Vec) (h : x.length = L.inF) :
    linApply L x = some (List.zipWith (fun w b => dot w x + b) L.weight L.bias) := by
  rw [linApply, if_pos h]

/-- Claim C2, amended: in variational mode, whenever `encode` returns, the
mean vector always has the configured latent size — it comes from
`en_layers[-1]`, the full-size dense layer appended for the log-variance —
but the log-variance vector comes from `en_layers[-2]`, the first final
dense layer, and so has `latent_size - 1` entries when disentanglement is
active with `old_experiment` false and `model_version ≠ 2.3`, and
`latent_size` entries otherwise. -/
theorem claim_C2_encode_output_sizes
    (fexp : ℚ → ℚ) (m : ModelP) (x : Mat) (mu lv : Vec)
    (hvae : m.is_vae = true)
    (hw1 : m.enLin1.weight.length = m.enLin1.bias.length)
    (hb1 : m.enLin1.bias.length
      = (if m.age_disentanglement = true ∧ m.old_experiment = false ∧ m.model_version ≠ 2.3
         then m.latent_size - 1 else m.latent_size))
    (hw2 : m.enLin2.weight.length = m.enLin2.bias.length)
    (hb2 : m.enLin2.bias.length = m.latent_size)
    (henc : m.encode fexp x = some (mu, some lv)) :
    mu.length = m.latent_size ∧
    lv.length
      = (if m.age_disentanglement = true ∧ m.old_experiment = false ∧ m.model_version ≠ 2.3
         then m.latent_size - 1 else m.latent_size) := by
  rw [ModelP.encode] at henc
  cases hy : runEnBlocks fexp m.enBlocks m.down_transform x with
  | none => rw [hy] at henc; simp at henc
  | some y =>
    rw [hy] at henc
    simp only [Option.some_bind] at henc
    rw [if_pos hvae] at henc
    cases h2 : linApply m.enLin2 y.flatten with
    | none => rw [h2] at henc; simp at henc
    | some mu' =>
      rw [h2] at henc
      simp only [Option.some_bind] at henc
      cases h1 : linApply m.enLin1 y.flatten with
      | none => rw [h1] at henc; simp at henc
      | some lv' =>
        rw [h1] at henc
        simp only [Option.map_some', Option.some.injEq, Prod.mk.injEq] at henc
        obtain ⟨hmu, hlv⟩ := henc
        rw [hmu] at h2
        rw [hlv] at h1
        constructor
        · rw [linApply_length m.enLin2 y.flatten mu h2, hw2, min_self, hb2]
        · rw [linApply_length m.enLin1 y.flatten lv h1, hw1, min_self, hb1]

/-- Witness for C2 on the concrete disentangled variational model
`exModelA` (`latent_size = 2`): the mean has 2 entries and the
log-variance 1 entry. -/
theorem claim_C2_witness :
    ([0, 0] : Vec).length = exModelA.latent_size ∧
    ([0] : Vec).length
      = (if exModelA.age_disentanglement = true ∧ exModelA.old_experiment = false
            ∧ exModelA.model_version ≠ 2.3
         then exModelA.latent_size - 1 else exModelA.latent_size) :=
  claim_C2_encode_output_sizes fexpEx exModelA [[0]] [0, 0] [0]
    (by rfl) (by rfl) (by norm_num [exModelA]) (by rfl) (by rfl)
    (by norm_num [ModelP.encode, exModelA, exConv1, exOp1, runEnBlocks, enBlockApply,
      sconvApply, seqMapO, linApply, poolApply, eluQ, sigmoidQ, fexpEx, dot, vecAdd,
      vecScale, channels])

/-- Counterexample to C2 as stated: on the disentangled variational model
`exModelA` with `latent_size = 2`, `encode` succeeds but returns a
log-variance of length `1 ≠ 2` — the claim that both returned vectors have
the configured latent size fails when disentanglement is active. -/
theorem claim_C2_counterexample :
    exModelA.is_vae = true ∧ exModelA.age_disentanglement = true ∧
    ModelP.encode fexpEx exModelA [[0]] = some ([0, 0], some [0]) ∧
    ([0] : Vec).length ≠ exModelA.latent_size := by
  refine ⟨rfl, rfl, ?_, by decide⟩
  norm_num [ModelP.encode, exModelA, exConv1, exOp1, runEnBlocks, enBlockApply,
    sconvApply, seqMapO, linApply, poolApply, eluQ, sigmoidQ, fexpEx, dot, vecAdd,
    vecScale, channels]

/-! ### Claim C3: encode/decode shape round-trip -/

theorem seqMapO_ok {α β : Type} (f : α → Option β) (P : β → Prop) :
    ∀ (l : List α), (∀ a ∈ l, ∃ b, f a = some b ∧ P b) →
      ∃ ys, seqMapO f l = some ys ∧ ys.length = l.length ∧ ∀ y ∈ ys, P y := by
  intro l
  induction l with
  | nil => exact fun _ => ⟨[], rfl, rfl, by simp⟩
  | cons a t ih =>
    intro h
    obtain ⟨b, hb, hPb⟩ := h a (List.mem_cons_self a t)
    obtain ⟨ys, hys, hlen, hP⟩ := ih (fun a' ha' => h a' (List.mem_cons_of_mem a ha'))
    refine ⟨b :: ys, ?_, by simp [hlen], ?_⟩
    · simp only [seqMapO, hb, hys]
    · intro y hy
      rcases List.mem_cons.1 hy with rfl | hy'
      · exact hPb
      · exact hP y hy'

theorem length_flatten_const {c : ℕ} :
    ∀ (rs : Mat), (∀ r ∈ rs, r.length = c) → rs.flatten.length = rs.length * c := by
  intro rs
  induction rs with
  | nil => intro _; simp
  | cons r t ih =>
    intro h
    simp only [List.flatten_cons, List.length_append, List.length_cons]
    rw [h r (List.mem_cons_self r t), ih (fun r' hr' => h r' (List.mem_cons_of_mem r hr'))]
    ring

theorem sconvApply_ok (cv : SpiralConvP) (x : Mat) (nIn cIn : ℕ)
    (hx : x.length = nIn) (hxc : ∀ r ∈ x, r.length = cIn)
    (hwf : convDimsOk cv nIn cIn = true) :
    ∃ y, sconvApply cv x = some y ∧ y.length = cv.nNodes ∧ ∀ r ∈ y, r.length = cv.outCh := by
  simp only [convDimsOk, Bool.and_eq_true, List.all_eq_true, decide_eq_true_eq] at hwf
  obtain ⟨⟨hidx, hinF⟩, hwb⟩ := hwf
  have hguard : (cv.indices.all fun q => q.all fun i => decide (i < x.length)) = true := by
    rw [List.all_eq_true]
    intro q hq
    rw [List.all_eq_true]
    intro i hi
    have := ((hidx q hq).2 : ∀ i ∈ q, i < nIn) i hi
    simp only [decide_eq_true_eq]
    omega
  have hgather : ∀ q ∈ cv.indices,
      ∃ b, linApply cv.layer ((q.map (fun i => x.getD i [])).flatten) = some b ∧
        b.length = cv.outCh := by
    intro q hq
    have hql : (q.map (fun i => x.getD i [])).flatten.length = cv.layer.inF := by
      have hrows : ∀ r ∈ q.map (fun i => x.getD i []), r.length = cIn := by
        intro r hr
        obtain ⟨i, hi, rfl⟩ := List.mem_map.1 hr
        exact hxc _ (getD_mem_of_lt x i [] (by rw [hx]; exact (hidx q hq).2 i hi))
      rw [length_flatten_const _ hrows, List.length_map, (hidx q hq).1, hinF,
        Nat.mul_comm]
    refine ⟨_, linApply_some cv.layer _ hql, ?_⟩
    rw [linApply_length cv.layer _ _ (linApply_some cv.layer _ hql), hwb, min_self]
    rfl
  obtain ⟨ys, hys, hlen, hP⟩ := seqMapO_ok (linApply cv.layer) (fun b => b.length = cv.outCh)
    (cv.indices.map (fun q => (q.map (fun i => x.getD i [])).flatten))
    (by
      intro a ha
      obtain ⟨q, hq, rfl⟩ := List.mem_map.1 ha
      exact hgather q hq)
  refine ⟨ys, ?_, ?_, hP⟩
  · rw [sconvApply, if_pos hguard, hys]
  · rw [hlen, List.length_map]
    rfl

theorem pool_foldl_shape (x : Mat) (c : ℕ) (hxc : ∀ r ∈ x, r.length = c) :
    ∀ (ts : List (ℕ × ℕ × ℚ)) (acc : Mat),
      (∀ t ∈ ts, t.2.1 < x.length ∧ t.1 < acc.length) →
      (∀ r ∈ acc, r.length = c) →
      (ts.foldl (fun acc t =>
          acc.set t.1 (vecAdd (acc.getD t.1 []) (vecScale t.2.2 (x.getD t.2.1 []))))
        acc).length = acc.length ∧
      ∀ r ∈ ts.foldl (fun acc t =>
          acc.set t.1 (vecAdd (acc.getD t.1 []) (vecScale t.2.2 (x.getD t.2.1 []))))
        acc, r.length = c := by
  intro ts
  induction ts with
  | nil => exact fun acc _ hacc => ⟨rfl, hacc⟩
  | cons t ts ih =>
    intro acc hts hacc
    simp only [List.foldl_cons]
    have hcol : t.2.1 < x.length := (hts t (List.mem_cons_self t ts)).1
    have hrow : t.1 < acc.length := (hts t (List.mem_cons_self t ts)).2
    have hnew : (vecAdd (acc.getD t.1 []) (vecScale t.2.2 (x.getD t.2.1 []))).length = c := by
      rw [vecAdd, List.length_zipWith, hacc _ (getD_mem_of_lt acc t.1 [] hrow),
        vecScale, List.length_map, hxc _ (getD_mem_of_lt x t.2.1 [] hcol), min_self]
    have hpres := ih (acc.set t.1 (vecAdd (acc.getD t.1 []) (vecScale t.2.2 (x.getD t.2.1 []))))
      (fun s hs => ⟨(hts s (List.mem_cons_of_mem t hs)).1,
        by rw [List.length_set]; exact (hts s (List.mem_cons_of_mem t hs)).2⟩)
      (fun r hr => by
        rcases List.mem_or_eq_of_mem_set hr with h | h
        · exact hacc r h
        · rw [h]; exact hnew)
    refine ⟨?_, hpres.2⟩
    rw [hpres.1, List.length_set]

theorem poolApply_ok (op : SparseOp) (x : Mat) (n c : ℕ)
    (h0 : 0 < n) (hx : x.length = n) (hxc : ∀ r ∈ x, r.length = c)
    (ht : ∀ t ∈ op.triples, t.2.1 < n ∧ t.1 < op.rows) :
    ∃ y, poolApply op x = some y ∧ y.length = op.rows ∧ ∀ r ∈ y, r.length = c := by
  have hcx : channels x = c := by
    cases x with
    | nil => simp at hx; omega
    | cons r x' => exact hxc r (List.mem_cons_self r x')
  have hguard : (op.triples.all fun t =>
      decide (t.2.1 < x.length) && decide (t.1 < op.rows)) = true := by
    rw [List.all_eq_true]
    intro t htm
    have h := ht t htm
    simp only [Bool.and_eq_true, decide_eq_true_eq]
    omega
  have hshape := pool_foldl_shape x c hxc op.triples
    (List.replicate op.rows (List.replicate (channels x) 0))
    (fun t htm => ⟨by rw [hx]; exact (ht t htm).1,
      by rw [List.length_replicate]; exact (ht t htm).2⟩)
    (fun r hr => by rw [List.eq_of_mem_replicate hr, List.length_replicate, hcx])
  refine ⟨_, by rw [poolApply, if_pos hguard], ?_, hshape.2⟩
  rw [hshape.1, List.length_replicate]

theorem mapElu_shape (fexp : ℚ → ℚ) (y : Mat) (n c : ℕ)
    (hy : y.length = n) (hyc : ∀ r ∈ y, r.length = c) :
    (y.map (List.map (eluQ fexp))).length = n ∧
    ∀ r ∈ y.map (List.map (eluQ fexp)), r.length = c := by
  refine ⟨by rw [List.length_map, hy], ?_⟩
  intro r hr
  obtain ⟨s, hs, rfl⟩ := List.mem_map.1 hr
  rw [List.length_map]
  exact hyc s hs

theorem enBlockApply_ok (fexp : ℚ → ℚ) (b : SpiralConvP) (d : SparseOp) (x : Mat) (n c : ℕ)
    (hx : x.length = n) (hxc : ∀ r ∈ x, r.length = c)
    (hconv : convDimsOk b n c = true) (h0n : 0 < b.nNodes)
    (hd : ∀ t ∈ d.triples, t.2.1 < b.nNodes ∧ t.1 < d.rows) :
    ∃ y, enBlockApply fexp b d x = some y ∧ y.length = d.rows ∧
      ∀ r ∈ y, r.length = b.outCh := by
  obtain ⟨y1, hy1, hl1, hc1⟩ := sconvApply_ok b x n c hx hxc hconv
  obtain ⟨hl2, hc2⟩ := mapElu_shape fexp y1 b.nNodes b.outCh hl1 hc1
  obtain ⟨y3, hy3, hl3, hc3⟩ := poolApply_ok d (y1.map (List.map (eluQ fexp)))
    b.nNodes b.outCh h0n hl2 hc2 hd
  refine ⟨y3, ?_, hl3, hc3⟩
  rw [enBlockApply, hy1]
  simp only [Option.map_some', Option.some_bind]
  exact hy3

theorem deBlockApply_ok (fexp : ℚ → ℚ) (b : SpiralConvP) (u : SparseOp) (x : Mat) (n c : ℕ)
    (hx : x.length = n) (hxc : ∀ r ∈ x, r.length = c) (h0 : 0 < n)
    (hu : ∀ t ∈ u.triples, t.2.1 < n ∧ t.1 < u.rows)
    (hconv : convDimsOk b u.rows c = true) :
    ∃ y, deBlockApply fexp b u x = some y ∧ y.length = b.nNodes ∧
      ∀ r ∈ y, r.length = b.outCh := by
  obtain ⟨y1, hy1, hl1, hc1⟩ := poolApply_ok u x n c h0 hx hxc hu
  obtain ⟨y2, hy2, hl2, hc2⟩ := sconvApply_ok b y1 u.rows c hl1 hc1 hconv
  obtain ⟨hl3, hc3⟩ := mapElu_shape fexp y2 b.nNodes b.outCh hl2 hc2
  refine ⟨y2.map (List.map (eluQ fexp)), ?_, hl3, hc3⟩
  rw [deBlockApply, hy1]
  simp only [Option.some_bind]
  rw [hy2]
  simp only [Option.map_some']

theorem runEnBlocks_ok (fexp : ℚ → ℚ) :
    ∀ (bs : List SpiralConvP) (ds : List SparseOp) (n c : ℕ) (x : Mat),
      enChainWf bs ds n c = true → x.length = n → (∀ r ∈ x, r.length = c) →
      ∃ y, runEnBlocks fexp bs ds x = some y ∧
        y.length = chainOutN bs ds n ∧ ∀ r ∈ y, r.length = chainOutC bs ds c := by
  intro bs
  induction bs with
  | nil =>
    intro ds n c x _ hx hxc
    exact ⟨x, rfl, by rw [hx]; rfl, fun r hr => by rw [hxc r hr]; rfl⟩
  | cons b bs ih =>
    intro ds n c x hwf hx hxc
    cases ds with
    | nil => simp [enChainWf] at hwf
    | cons d ds' =>
      simp only [enChainWf, Bool.and_eq_true, decide_eq_true_eq, List.all_eq_true] at hwf
      obtain ⟨⟨⟨⟨h0, hconv⟩, h0n⟩, hd⟩, hrest⟩ := hwf
      obtain ⟨y1, hy1, hl1, hc1⟩ := enBlockApply_ok fexp b d x n c hx hxc hconv h0n
        (fun t htm => by
          have := hd t htm
          simp only [Bool.and_eq_true, decide_eq_true_eq] at this
          exact this)
      obtain ⟨y2, hy2, hl2, hc2⟩ := ih ds' d.rows b.outCh y1 hrest hl1 hc1
      refine ⟨y2, ?_, hl2, hc2⟩
      rw [runEnBlocks, hy1]
      simp only [Option.some_bind]
      exact hy2

theorem runDeBlocks_ok (fexp : ℚ → ℚ) :
    ∀ (bs : List SpiralConvP) (us : List SparseOp) (n c : ℕ) (x : Mat),
      deChainWf bs us n c = true → x.length = n → (∀ r ∈ x, r.length = c) →
      ∃ y, runDeBlocks fexp bs us x = some y ∧
        y.length = deChainOutN bs us n ∧ ∀ r ∈ y, r.length = deChainOutC bs us c := by
  intro bs
  induction bs with
  | nil =>
    intro us n c x _ hx hxc
    exact ⟨x, rfl, by rw [hx]; rfl, fun r hr => by rw [hxc r hr]; rfl⟩
  | cons b bs ih =>
    intro us n c x hwf hx hxc
    cases us with
    | nil => simp [deChainWf] at hwf
    | cons u us' =>
      simp only [deChainWf, Bool.and_eq_true, decide_eq_true_eq, List.all_eq_true] at hwf
      obtain ⟨⟨⟨h0, hu⟩, hconv⟩, hrest⟩ := hwf
      obtain ⟨y1, hy1, hl1, hc1⟩ := deBlockApply_ok fexp b u x n c hx hxc h0
        (fun t htm => by
          have := hu t htm
          simp only [Bool.and_eq_true, decide_eq_true_eq] at this
          exact this)
        hconv
      obtain ⟨y2, hy2, hl2, hc2⟩ := ih us' b.nNodes b.outCh y1 hrest hl1 hc1
      refine ⟨y2, ?_, hl2, hc2⟩
      rw [runDeBlocks, hy1]
      simp only [Option.some_bind]
      exact hy2

theorem splitRows_shape :
    ∀ (n c : ℕ) (v : Vec), v.length = n * c →
      (splitRows n c v).length = n ∧ ∀ r ∈ splitRows n c v, r.length = c := by
  intro n
  induction n with
  | zero =>
    intro c v _
    exact ⟨rfl, by simp [splitRows]⟩
  | succ k ih =>
    intro c v h
    rw [Nat.succ_mul] at h
    have htake : (v.take c).length = c := by
      rw [List.length_take]
      omega
    have hdrop : (v.drop c).length = k * c := by
      rw [List.length_drop]
      omega
    obtain ⟨hl, hc⟩ := ih c (v.drop c) hdrop
    refine ⟨?_, ?_⟩
    · simp only [splitRows, List.length_cons, hl]
    · intro r hr
      simp only [splitRows] at hr
      rcases List.mem_cons.1 hr with rfl | hr'
      · exact htake
      · exact hc r hr'

/-- Claim C3, amended: for every well-formed model configuration in which
the mean produced by `encode` has the full latent size — every variational
configuration, and every non-variational one except disentanglement active
with `old_experiment` false and `model_version ≠ 2.3` — and every valid
`(V × C)` input signal, `encode` succeeds, `decode` applied to the mean
succeeds and returns a `(V × C)` signal, and `decode` is the decoder
prefix followed by one plain spiral convolution with no activation and no
pooling after it.  In the excluded non-variational disentangled
configuration the mean has `latent_size - 1` entries and `decode` rejects
it (see the counterexample). -/
theorem claim_C3_decode_encode_shape
    (fexp : ℚ → ℚ) (m : ModelP) (V C : ℕ) (x : Mat)
    (hwf : m.wfPipeline V C = true) (hmu : m.muFull = true)
    (hx : x.length = V) (hxc : ∀ r ∈ x, r.length = C) :
    ∃ mu lv out,
      m.encode fexp x = some (mu, lv) ∧
      m.decode fexp mu = some out ∧
      out.length = V ∧ (∀ r ∈ out, r.length = C) ∧
      m.decode fexp mu = (m.decodePre fexp mu).bind (sconvApply m.deLast) := by
  simp only [ModelP.wfPipeline, Bool.and_eq_true, decide_eq_true_eq] at hwf
  obtain ⟨⟨⟨⟨⟨⟨⟨⟨⟨⟨⟨⟨⟨hchain, houtN⟩, houtC⟩, hin1⟩, hw1⟩, hb1⟩, hvae2⟩,
    hdin⟩, hdw⟩, hdb⟩, hdchain⟩, hdlast⟩, hdV⟩, hdC⟩ := hwf
  obtain ⟨y, hy, hyl, hyc⟩ :=
    runEnBlocks_ok fexp m.enBlocks m.down_transform V C x hchain hx hxc
  rw [houtN] at hyl
  rw [houtC] at hyc
  have hvlen : y.flatten.length = m.numVert * m.outLast := by
    rw [length_flatten_const y hyc, hyl]
  -- the mean vector returned by encode, and its length
  have hmufull : ∃ mu lv, m.encode fexp x = some (mu, lv) ∧ mu.length = m.latent_size := by
    rw [ModelP.encode, hy]
    simp only [Option.some_bind]
    cases hv : m.is_vae with
    | true =>
      rw [if_pos rfl]
      have hvae2' := hvae2
      rw [hv] at hvae2'
      simp only [Bool.not_true, Bool.false_or, Bool.and_eq_true, decide_eq_true_eq] at hvae2'
      obtain ⟨⟨hin2, hw2⟩, hb2⟩ := hvae2'
      have h2 := linApply_some m.enLin2 y.flatten (by rw [hvlen, hin2])
      have h1 := linApply_some m.enLin1 y.flatten (by rw [hvlen, hin1])
      rw [h2]
      simp only [Option.some_bind]
      rw [h1]
      simp only [Option.map_some']
      refine ⟨_, _, rfl, ?_⟩
      rw [linApply_length m.enLin2 y.flatten _ h2, hw2, min_self, hb2]
    | false =>
      simp only [hv, Bool.false_eq_true, if_false]
      have h1 := linApply_some m.enLin1 y.flatten (by rw [hvlen, hin1])
      rw [h1]
      simp only [Option.map_some']
      refine ⟨_, _, rfl, ?_⟩
      rw [List.length_map, linApply_length m.enLin1 y.flatten _ h1, hw1, min_self, hb1]
      rw [ModelP.muFull, hv] at hmu
      simp only [Bool.false_or, Bool.not_eq_true', Bool.and_eq_true, Bool.not_eq_true,
        decide_eq_true_eq] at hmu
      rw [ModelP.enLin1Out]
      split
      · rename_i hcond
        obtain ⟨ha, hb, hc⟩ := hcond
        rcases Bool.and_eq_false_iff.1 hmu with h | h
        · rcases Bool.and_eq_false_iff.1 h with h' | h'
          · rw [ha] at h'; exact absurd h' (by simp)
          · rw [hb] at h'; exact absurd h' (by simp)
        · have h' : decide (m.model_version = 2.3) = true := by
            cases hdec2 : decide (m.model_version = 2.3) with
            | false => rw [hdec2] at h; simp at h
            | true => rfl
          exact absurd (of_decide_eq_true h') hc
      · rfl
  obtain ⟨mu, lv, henc, hmulen⟩ := hmufull
  -- decode the mean
  have hdec := linApply_some m.deFirst mu (by rw [hmulen, hdin])
  have hdeclen : (List.zipWith (fun w b => dot w mu + b) m.deFirst.weight m.deFirst.bias).length
      = m.numVert * m.outLast := by
    rw [List.length_zipWith, hdw, min_self, hdb]
  obtain ⟨hsl, hsc⟩ := splitRows_shape m.numVert m.outLast _ hdeclen
  obtain ⟨z, hz, hzl, hzc⟩ := runDeBlocks_ok fexp m.deBlocks
    ((m.up_transform.take m.deBlocks.length).reverse) m.numVert m.outLast
    (splitRows m.numVert m.outLast
      (List.zipWith (fun w b => dot w mu + b) m.deFirst.weight m.deFirst.bias))
    hdchain hsl hsc
  obtain ⟨out, hout, houtl, houtc⟩ := sconvApply_ok m.deLast z _ _ hzl hzc hdlast
  have hpre : m.decodePre fexp mu = some z := by
    rw [ModelP.decodePre, hdec]
    simp only [Option.some_bind]
    rw [show m.out_channels.getLastD 0 = m.outLast from rfl, if_pos hdeclen]
    exact hz
  refine ⟨mu, lv, out, henc, ?_, ?_, ?_, rfl⟩
  · rw [ModelP.decode, hpre]
    simp only [Option.some_bind]
    exact hout
  · rw [houtl, hdV]
  · intro r hr
    rw [houtc r hr, hdC]

/-- Witness for C3 on a concrete well-formed variational,
non-disentangled model over a one-vertex, one-channel mesh. -/
theorem claim_C3_witness :
    exModelC.wfPipeline 1 1 = true ∧ exModelC.muFull = true ∧
    ∃ mu lv out,
      ModelP.encode fexpEx exModelC [[0]] = some (mu, lv) ∧
      ModelP.decode fexpEx exModelC mu = some out ∧
      out.length = 1 ∧ (∀ r ∈ out, r.length = 1) ∧
      ModelP.decode fexpEx exModelC mu
        = (ModelP.decodePre fexpEx exModelC mu).bind (sconvApply exModelC.deLast) := by
  have hwf : exModelC.wfPipeline 1 1 = true := by
    norm_num [ModelP.wfPipeline, ModelP.numVert, ModelP.outLast, ModelP.enLin1Out, exModelC,
      exModelA, exConv1, exOp1, enChainWf, deChainWf, chainOutN, chainOutC, deChainOutN,
      deChainOutC, convDimsOk, SpiralConvP.seqLen, SpiralConvP.nNodes, SpiralConvP.outCh]
  have hmu : exModelC.muFull = true := rfl
  exact ⟨hwf, hmu,
    claim_C3_decode_encode_shape fexpEx exModelC 1 1 [[0]] hwf hmu rfl (by decide)⟩

/-- Counterexample to C3 as stated: on the structurally well-formed but
non-variational disentangled model `exModelB` (`latent_size = 2`), encode
succeeds with a mean of only one entry, and decode applied to that mean
fails with a shape error (`none`) — `decode(encode(x))` does not return a
`(V × C)` signal for this configuration. -/
theorem claim_C3_counterexample :
    exModelB.wfPipeline 1 1 = true ∧
    exModelB.is_vae = false ∧ exModelB.age_disentanglement = true ∧
    ModelP.encode fexpEx exModelB [[0]] = some ([1 / 2], none) ∧
    ModelP.decode fexpEx exModelB [1 / 2] = none := by
  refine ⟨?_, rfl, rfl, ?_, ?_⟩
  · norm_num [ModelP.wfPipeline, ModelP.numVert, ModelP.outLast, ModelP.enLin1Out, exModelB,
      exModelA, exConv1, exOp1, enChainWf, deChainWf, chainOutN, chainOutC, deChainOutN,
      deChainOutC, convDimsOk, SpiralConvP.seqLen, SpiralConvP.nNodes, SpiralConvP.outCh]
  · norm_num [ModelP.encode, exModelB, exModelA, exConv1, exOp1, runEnBlocks, enBlockApply,
      sconvApply, seqMapO, linApply, poolApply, eluQ, sigmoidQ, fexpEx, dot, vecAdd, vecScale,
      channels]
  · norm_num [ModelP.decode, ModelP.decodePre, exModelB, exModelA, exConv1, exOp1, runDeBlocks,
      deBlockApply, sconvApply, seqMapO, linApply, poolApply, eluQ, fexpEx, dot, vecAdd,
      vecScale, channels, splitRows, ModelP.numVert]
